import Mathlib

/-!
Verification of the omo-switch core: the deep-merge engine and diff renderer
(`src/utils/merge-config.ts`), the scope resolver (`src/utils/scope-resolver.ts`),
the settings loader (`src/utils/settings.ts`), the backup cleaner
(`src/utils/backup-cleaner.ts`), and the state transitions of the `rm` and
`apply` command handlers (`src/commands/rm.ts`, `src/commands/apply.ts`).

JSON documents are shallow-embedded as a mutual inductive family: `Json` for
values, `JList` for array element lists, `JFields` for the ordered key/value
fields of an object.  JavaScript objects are ordered key/value sequences with
distinct keys; where distinctness matters theorems carry a well-formedness
hypothesis.  JSON numbers are modelled as integers (none of the verified
behaviour depends on non-integer numerics).  `deepClone` is the identity in a
pure value model; the no-aliasing aspect of cloning is outside a shallow
embedding, but the clone functions are kept so the definitions mirror the
source line by line.
-/

mutual
inductive Json where
  | null
  | bool (b : Bool)
  | num (n : Int)
  | str (s : String)
  | arr (elems : JList)
  | obj (fields : JFields)
deriving Repr

inductive JList where
  | nil
  | cons (hd : Json) (tl : JList)
deriving Repr

inductive JFields where
  | nil
  | cons (key : String) (val : Json) (tl : JFields)
deriving Repr
end

mutual
def Json.decEq : (a b : Json) → Decidable (a = b)
  | .null, .null => isTrue rfl
  | .bool a, .bool b =>
    match decEq a b with
    | isTrue h => isTrue (by rw [h])
    | isFalse _ => isFalse (by intro hh; injection hh; contradiction)
  | .num a, .num b =>
    match decEq a b with
    | isTrue h => isTrue (by rw [h])
    | isFalse _ => isFalse (by intro hh; injection hh; contradiction)
  | .str a, .str b =>
    match decEq a b with
    | isTrue h => isTrue (by rw [h])
    | isFalse _ => isFalse (by intro hh; injection hh; contradiction)
  | .arr a, .arr b =>
    match JList.decEq a b with
    | isTrue h => isTrue (by rw [h])
    | isFalse _ => isFalse (by intro hh; injection hh; contradiction)
  | .obj a, .obj b =>
    match JFields.decEq a b with
    | isTrue h => isTrue (by rw [h])
    | isFalse _ => isFalse (by intro hh; injection hh; contradiction)
  | .null, .bool _ => isFalse (by intro h; exact Json.noConfusion h)
  | .null, .num _ => isFalse (by intro h; exact Json.noConfusion h)
  | .null, .str _ => isFalse (by intro h; exact Json.noConfusion h)
  | .null, .arr _ => isFalse (by intro h; exact Json.noConfusion h)
  | .null, .obj _ => isFalse (by intro h; exact Json.noConfusion h)
  | .bool _, .null => isFalse (by intro h; exact Json.noConfusion h)
  | .bool _, .num _ => isFalse (by intro h; exact Json.noConfusion h)
  | .bool _, .str _ => isFalse (by intro h; exact Json.noConfusion h)
  | .bool _, .arr _ => isFalse (by intro h; exact Json.noConfusion h)
  | .bool _, .obj _ => isFalse (by intro h; exact Json.noConfusion h)
  | .num _, .null => isFalse (by intro h; exact Json.noConfusion h)
  | .num _, .bool _ => isFalse (by intro h; exact Json.noConfusion h)
  | .num _, .str _ => isFalse (by intro h; exact Json.noConfusion h)
  | .num _, .arr _ => isFalse (by intro h; exact Json.noConfusion h)
  | .num _, .obj _ => isFalse (by intro h; exact Json.noConfusion h)
  | .str _, .null => isFalse (by intro h; exact Json.noConfusion h)
  | .str _, .bool _ => isFalse (by intro h; exact Json.noConfusion h)
  | .str _, .num _ => isFalse (by intro h; exact Json.noConfusion h)
  | .str _, .arr _ => isFalse (by intro h; exact Json.noConfusion h)
  | .str _, .obj _ => isFalse (by intro h; exact Json.noConfusion h)
  | .arr _, .null => isFalse (by intro h; exact Json.noConfusion h)
  | .arr _, .bool _ => isFalse (by intro h; exact Json.noConfusion h)
  | .arr _, .num _ => isFalse (by intro h; exact Json.noConfusion h)
  | .arr _, .str _ => isFalse (by intro h; exact Json.noConfusion h)
  | .arr _, .obj _ => isFalse (by intro h; exact Json.noConfusion h)
  | .obj _, .null => isFalse (by intro h; exact Json.noConfusion h)
  | .obj _, .bool _ => isFalse (by intro h; exact Json.noConfusion h)
  | .obj _, .num _ => isFalse (by intro h; exact Json.noConfusion h)
  | .obj _, .str _ => isFalse (by intro h; exact Json.noConfusion h)
  | .obj _, .arr _ => isFalse (by intro h; exact Json.noConfusion h)

def JList.decEq : (a b : JList) → Decidable (a = b)
  | .nil, .nil => isTrue rfl
  | .nil, .cons _ _ => isFalse (by intro h; exact JList.noConfusion h)
  | .cons _ _, .nil => isFalse (by intro h; exact JList.noConfusion h)
  | .cons x xs, .cons y ys =>
    match Json.decEq x y, JList.decEq xs ys with
    | isTrue h1, isTrue h2 => isTrue (by rw [h1, h2])
    | isFalse _, _ => isFalse (by intro hh; injection hh; contradiction)
    | _, isFalse _ => isFalse (by intro hh; injection hh; contradiction)

def JFields.decEq : (a b : JFields) → Decidable (a = b)
  | .nil, .nil => isTrue rfl
  | .nil, .cons _ _ _ => isFalse (by intro h; exact JFields.noConfusion h)
  | .cons _ _ _, .nil => isFalse (by intro h; exact JFields.noConfusion h)
  | .cons k v tl, .cons k' v' tl' =>
    match decEq k k', Json.decEq v v', JFields.decEq tl tl' with
    | isTrue h1, isTrue h2, isTrue h3 => isTrue (by rw [h1, h2, h3])
    | isFalse _, _, _ => isFalse (by intro hh; injection hh; contradiction)
    | _, isFalse _, _ => isFalse (by intro hh; injection hh; contradiction)
    | _, _, isFalse _ => isFalse (by intro hh; injection hh; contradiction)
end

instance : DecidableEq Json := Json.decEq
instance : DecidableEq JList := JList.decEq
instance : DecidableEq JFields := JFields.decEq

/-- `obj[key]` on a JavaScript object: the value at `key`, or `undefined`
(modelled as `none`) when the key is absent. -/
def JFields.lookup : JFields → String → Option Json
  | .nil, _ => none
  | .cons k v tl, key => if k == key then some v else JFields.lookup tl key

/-- `key in obj` on a JavaScript object. -/
def JFields.hasKey (fs : JFields) (key : String) : Bool :=
  (fs.lookup key).isSome

/-- `Object.keys(obj)`: the keys in insertion order. -/
def JFields.keys : JFields → List String
  | .nil => []
  | .cons k _ tl => k :: JFields.keys tl

def JFields.append : JFields → JFields → JFields
  | .nil, b => b
  | .cons k v tl, b => .cons k v (JFields.append tl b)

instance : Append JFields := ⟨JFields.append⟩

/-- `isPlainObject` from `merge-config.ts`: an object that is neither `null`
nor an array. -/
def isPlainObject : Json → Bool
  | .obj _ => true
  | _ => false

/-- `Array.isArray`. -/
def isArray : Json → Bool
  | .arr _ => true
  | _ => false

mutual
/-- `deepClone` from `merge-config.ts`. -/
def deepClone : Json → Json
  | .null => .null
  | .bool b => .bool b
  | .num n => .num n
  | .str s => .str s
  | .arr xs => .arr (JList.cloneList xs)
  | .obj fs => .obj (JFields.cloneFields fs)

def JList.cloneList : JList → JList
  | .nil => .nil
  | .cons x xs => .cons (deepClone x) (JList.cloneList xs)

def JFields.cloneFields : JFields → JFields
  | .nil => .nil
  | .cons k v tl => .cons k (deepClone v) (JFields.cloneFields tl)
end

mutual
theorem deepClone_eq : ∀ v : Json, deepClone v = v
  | .null => rfl
  | .bool _ => rfl
  | .num _ => rfl
  | .str _ => rfl
  | .arr xs => by rw [deepClone, JList.cloneList_eq xs]
  | .obj fs => by rw [deepClone, JFields.cloneFields_eq fs]

theorem JList.cloneList_eq : ∀ xs : JList, JList.cloneList xs = xs
  | .nil => rfl
  | .cons x xs => by rw [JList.cloneList, deepClone_eq x, JList.cloneList_eq xs]

theorem JFields.cloneFields_eq : ∀ fs : JFields, JFields.cloneFields fs = fs
  | .nil => rfl
  | .cons k v tl => by rw [JFields.cloneFields, deepClone_eq v, JFields.cloneFields_eq tl]
end

/-- Second loop of `deepMerge`: the override entries whose key is not in
`base`, deep-cloned (`if (!(key in baseObj)) result[key] = deepClone(...)`). -/
def cloneNewEntries (base : JFields) : JFields → JFields
  | .nil => .nil
  | .cons k v tl =>
    if base.hasKey k then cloneNewEntries base tl
    else .cons k (deepClone v) (cloneNewEntries base tl)

/-- First loop of `deepMerge`, walking the entries of `base` (with `fullBase`
the whole base object, used by the trailing override-only pass): a key only in
base is deep-cloned; a key in both with two plain objects recurses; otherwise
the override value wins, deep-cloned. -/
def deepMergeGo (fullBase : JFields) : JFields → JFields → JFields
  | .nil, override => cloneNewEntries fullBase override
  | .cons k bv tl, override =>
    .cons k
      (match JFields.lookup override k with
       | none => deepClone bv
       | some ov =>
         match bv, ov with
         | .obj bo, .obj oo => .obj (deepMergeGo bo bo oo)
         | _, _ => deepClone ov)
      (deepMergeGo fullBase tl override)

/-- `deepMerge` from `merge-config.ts`: override values win on conflict,
plain objects are merged recursively, everything else (arrays included) is
replaced outright. -/
def deepMerge (base override : JFields) : JFields :=
  deepMergeGo base base override

/-- The per-key value resolution performed by the first loop of `deepMerge`
for a base entry value `bv`, given the override's value at the same key. -/
def mergeResolve (bv : Json) (ovOpt : Option Json) : Json :=
  match ovOpt with
  | none => deepClone bv
  | some ov =>
    match bv, ov with
    | .obj bo, .obj oo => .obj (deepMerge bo oo)
    | _, _ => deepClone ov

/-- The per-key contract of `deepMerge` as stated by the spec (§4.3): a key
only in base keeps base's value; a key in both with two plain key-value
documents maps to their recursive merge; a key in both where at least one side
is not a plain document maps to override's value; a key only in override maps
to override's value; a key in neither is absent.  (Deep-cloning is value
identity in this pure model.) -/
def mergePerKeySpec (b o : Option Json) : Option Json :=
  match b, o with
  | none, none => none
  | some bv, none => some bv
  | none, some ov => some ov
  | some (.obj bo), some (.obj oo) => some (.obj (deepMerge bo oo))
  | some _, some ov => some ov

theorem lookup_cloneNewEntries (base : JFields) :
    ∀ (ov : JFields) (k : String),
      (cloneNewEntries base ov).lookup k =
        if base.hasKey k then none else (ov.lookup k).map deepClone
  | .nil, k => by
    simp only [cloneNewEntries, JFields.lookup, Option.map_none']
    split <;> rfl
  | .cons k' v' tl, k => by
    simp only [cloneNewEntries]
    by_cases hk' : base.hasKey k' = true
    · simp only [hk', if_true]
      rw [lookup_cloneNewEntries base tl k]
      by_cases hbk : base.hasKey k = true
      · simp [hbk]
      · simp only [Bool.not_eq_true] at hbk
        simp only [hbk, if_false]
        have : (k' == k) = false := by
          by_contra hcontra
          simp only [Bool.not_eq_false, beq_iff_eq] at hcontra
          rw [hcontra] at hk'
          simp [hk'] at hbk
        simp [JFields.lookup, this]
    · simp only [Bool.not_eq_true] at hk'
      simp only [hk', if_false]
      by_cases hkk : (k' == k) = true
      · have hk'eq : k' = k := beq_iff_eq.mp hkk
        subst hk'eq
        simp [JFields.lookup, hk']
      · simp only [Bool.not_eq_true] at hkk
        simp only [JFields.lookup, hkk, if_false]
        exact lookup_cloneNewEntries base tl k

theorem lookup_deepMergeGo (fullBase : JFields) :
    ∀ (rem ov : JFields) (k : String),
      (deepMergeGo fullBase rem ov).lookup k =
        match rem.lookup k with
        | some bv => some (mergeResolve bv (ov.lookup k))
        | none => if fullBase.hasKey k then none else (ov.lookup k).map deepClone
  | .nil, ov, k => by
    simp only [deepMergeGo, JFields.lookup]
    exact lookup_cloneNewEntries fullBase ov k
  | .cons kk bv tl, ov, k => by
    simp only [deepMergeGo, JFields.lookup]
    by_cases hkk : (kk == k) = true
    · have : kk = k := beq_iff_eq.mp hkk
      subst this
      simp only [hkk, if_true]
      rfl
    · simp only [Bool.not_eq_true] at hkk
      simp only [hkk, if_false]
      exact lookup_deepMergeGo fullBase tl ov k

/-- Shared lookup characterization of `deepMerge` (used by several claims):
at every key the result is exactly the spec's per-key case split. -/
theorem lookup_deepMerge (base ov : JFields) (k : String) :
    (deepMerge base ov).lookup k = mergePerKeySpec (base.lookup k) (ov.lookup k) := by
  rw [deepMerge, lookup_deepMergeGo base base ov k]
  cases hb : base.lookup k with
  | some bv =>
    cases ho : ov.lookup k with
    | none =>
      simp only [mergeResolve, mergePerKeySpec, deepClone_eq]
    | some ovv =>
      cases bv <;> cases ovv <;>
        simp only [mergeResolve, mergePerKeySpec, deepClone_eq, deepMerge]
  | none =>
    have hhb : base.hasKey k = false := by
      simp [JFields.hasKey, hb]
    simp only [hhb, if_false]
    cases ho : ov.lookup k with
    | none => simp [mergePerKeySpec]
    | some ovv => simp [mergePerKeySpec, deepClone_eq]

/-- C2: at every nesting level and every key, `deepMerge` realizes the spec's
per-key contract: keys only in base keep base's value (deep-cloned); keys in
both with two plain key-value documents map to the recursive merge; keys in
both where at least one side is not a plain document map to override's value
(deep-cloned); keys only in override map to override's value; no other key is
present in the result (the lookup is `none` exactly when it is `none` in both
inputs).  Nested levels are covered because `mergePerKeySpec` reapplies
`deepMerge` to the nested documents. -/
theorem deepMerge_per_key_spec :
    ∀ (base override : JFields) (k : String),
      (deepMerge base override).lookup k =
        mergePerKeySpec (base.lookup k) (override.lookup k) :=
  fun base override k => lookup_deepMerge base override k

/-- C3: a key present in both inputs whose value on either side is an array is
replaced outright by the override's value (no element-wise merge, no
concatenation); and concretely
`deepMerge {items:["a","b"]} {items:["c"]} = {items:["c"]}`. -/
theorem deepMerge_arrays_atomic :
    (∀ (base override : JFields) (k : String) (bv ov : Json),
        base.lookup k = some bv → override.lookup k = some ov →
        (isArray bv || isArray ov) = true →
        (deepMerge base override).lookup k = some ov)
    ∧ deepMerge
        (.cons "items" (.arr (.cons (.str "a") (.cons (.str "b") .nil))) .nil)
        (.cons "items" (.arr (.cons (.str "c") .nil)) .nil)
      = .cons "items" (.arr (.cons (.str "c") .nil)) .nil := by
  constructor
  · intro base override k bv ov hb ho harr
    rw [lookup_deepMerge, hb, ho]
    cases bv <;> cases ov <;> simp_all [isArray, mergePerKeySpec]
  · decide

/-- Witness for C3: the universal part applied at the concrete array example. -/
theorem deepMerge_arrays_atomic_witness :
    (deepMerge
        (.cons "items" (.arr (.cons (.str "a") (.cons (.str "b") .nil))) .nil)
        (.cons "items" (.arr (.cons (.str "c") .nil)) .nil)).lookup "items"
      = some (.arr (.cons (.str "c") .nil)) :=
  deepMerge_arrays_atomic.1
    (.cons "items" (.arr (.cons (.str "a") (.cons (.str "b") .nil))) .nil)
    (.cons "items" (.arr (.cons (.str "c") .nil)) .nil)
    "items" (.arr (.cons (.str "a") (.cons (.str "b") .nil)))
    (.arr (.cons (.str "c") .nil)) (by decide) (by decide) (by decide)

theorem JFields.mem_keys_iff_lookup : ∀ (fs : JFields) (k : String),
    k ∈ fs.keys ↔ fs.lookup k ≠ none
  | .nil, k => by simp [JFields.keys, JFields.lookup]
  | .cons k' v tl, k => by
    simp only [JFields.keys, List.mem_cons, JFields.lookup]
    by_cases h : (k' == k) = true
    · have : k' = k := beq_iff_eq.mp h
      subst this
      simp [h]
    · simp only [Bool.not_eq_true] at h
      have : ¬ k = k' := fun hc => by simp [hc] at h
      simp [h, this]
      exact JFields.mem_keys_iff_lookup tl k

theorem JFields.hasKey_iff_mem (fs : JFields) (k : String) :
    fs.hasKey k = true ↔ k ∈ fs.keys := by
  rw [JFields.mem_keys_iff_lookup, JFields.hasKey, Option.isSome_iff_ne_none]

theorem JFields.lookup_none_of_not_mem (fs : JFields) (k : String)
    (h : k ∉ fs.keys) : fs.lookup k = none := by
  by_contra hc
  exact h ((JFields.mem_keys_iff_lookup fs k).mpr hc)

theorem keys_cloneNewEntries (base : JFields) :
    ∀ ov : JFields,
      (cloneNewEntries base ov).keys = ov.keys.filter (fun k => !base.hasKey k)
  | .nil => rfl
  | .cons k v tl => by
    simp only [cloneNewEntries, JFields.keys, List.filter_cons]
    by_cases h : base.hasKey k = true
    · simp [h, keys_cloneNewEntries base tl]
    · simp only [Bool.not_eq_true] at h
      simp [h, JFields.keys, keys_cloneNewEntries base tl]

theorem keys_deepMergeGo (fullBase : JFields) :
    ∀ (rem ov : JFields),
      (deepMergeGo fullBase rem ov).keys = rem.keys ++ (cloneNewEntries fullBase ov).keys
  | .nil, ov => by simp [deepMergeGo, JFields.keys]
  | .cons k bv tl, ov => by
    simp only [deepMergeGo, JFields.keys, keys_deepMergeGo fullBase tl ov, List.cons_append]

theorem keys_deepMerge (base ov : JFields) :
    (deepMerge base ov).keys = base.keys ++ ov.keys.filter (fun k => !base.hasKey k) := by
  rw [deepMerge, keys_deepMergeGo, keys_cloneNewEntries]

theorem hasKey_deepMerge (base ov : JFields) (k : String) :
    (deepMerge base ov).hasKey k = (base.hasKey k || ov.hasKey k) := by
  simp only [JFields.hasKey, lookup_deepMerge]
  cases hb : base.lookup k <;> cases ho : ov.lookup k
  · rfl
  · simp [mergePerKeySpec]
  · simp [mergePerKeySpec]
  · rename_i bv ovv
    cases bv <;> cases ovv <;> simp [mergePerKeySpec]

theorem JFields.ext_of_lookup : ∀ (a b : JFields),
    a.keys.Nodup → a.keys = b.keys → (∀ k, a.lookup k = b.lookup k) → a = b
  | .nil, b, _, hkeys, _ => by
    cases b with
    | nil => rfl
    | cons k v tl => simp [JFields.keys] at hkeys
  | .cons k v tl, b, hnd, hkeys, hlook => by
    cases b with
    | nil => simp [JFields.keys] at hkeys
    | cons k' v' tl' =>
      simp only [JFields.keys, List.cons.injEq] at hkeys
      obtain ⟨hk, htl⟩ := hkeys
      subst hk
      have hv : v = v' := by
        have := hlook k
        simp [JFields.lookup] at this
        exact this
      subst hv
      have hndtl : tl.keys.Nodup := (List.nodup_cons.mp hnd).2
      have hknot : k ∉ tl.keys := (List.nodup_cons.mp hnd).1
      have htl' : tl = tl' := by
        apply JFields.ext_of_lookup tl tl' hndtl htl
        intro k2
        by_cases hkk : (k == k2) = true
        · have : k = k2 := beq_iff_eq.mp hkk
          subst this
          rw [JFields.lookup_none_of_not_mem tl k hknot,
            JFields.lookup_none_of_not_mem tl' k (htl ▸ hknot)]
        · simp only [Bool.not_eq_true] at hkk
          have := hlook k2
          simpa [JFields.lookup, hkk] using this
      rw [htl']

mutual
/-- Deep well-formedness of a JavaScript-originated document: every object at
every level has distinct keys (a JavaScript object cannot carry duplicates). -/
def Json.wfB : Json → Bool
  | .null => true
  | .bool _ => true
  | .num _ => true
  | .str _ => true
  | .arr xs => JList.wfB xs
  | .obj fs => JFields.wfB fs

def JList.wfB : JList → Bool
  | .nil => true
  | .cons x xs => Json.wfB x && JList.wfB xs

def JFields.wfB : JFields → Bool
  | .nil => true
  | .cons k v tl => !tl.hasKey k && Json.wfB v && JFields.wfB tl
end

theorem JFields.wfB_nodup : ∀ fs : JFields, JFields.wfB fs = true → fs.keys.Nodup
  | .nil, _ => List.nodup_nil
  | .cons k v tl, h => by
    simp only [JFields.wfB, Bool.and_eq_true, Bool.not_eq_true'] at h
    obtain ⟨⟨hnk, _⟩, htl⟩ := h
    refine List.nodup_cons.mpr ⟨?_, JFields.wfB_nodup tl htl⟩
    intro hmem
    rw [(JFields.hasKey_iff_mem tl k).mpr hmem] at hnk
    cases hnk

theorem JFields.wfB_lookup : ∀ (fs : JFields) (k : String) (v : Json),
    JFields.wfB fs = true → fs.lookup k = some v → Json.wfB v = true
  | .nil, k, v, _, hl => by simp [JFields.lookup] at hl
  | .cons k' v' tl, k, v, hwf, hl => by
    simp only [JFields.wfB, Bool.and_eq_true] at hwf
    simp only [JFields.lookup] at hl
    by_cases hkk : (k' == k) = true
    · simp only [hkk, if_true, Option.some.injEq] at hl
      exact hl ▸ hwf.1.2
    · simp only [Bool.not_eq_true] at hkk
      simp only [hkk, if_false] at hl
      exact JFields.wfB_lookup tl k v hwf.2 hl

theorem JFields.sizeOf_pos : ∀ fs : JFields, 0 < sizeOf fs
  | .nil => by simp
  | .cons _ _ _ => by simp

theorem JFields.lookup_sizeOf : ∀ (fs : JFields) (k : String) (v : Json),
    fs.lookup k = some v → sizeOf v < sizeOf fs
  | .nil, k, v => by simp [JFields.lookup]
  | .cons k' v' tl, k, v => by
    simp only [JFields.lookup]
    split
    · intro h
      cases h
      simp
      omega
    · intro h
      have := JFields.lookup_sizeOf tl k v h
      simp
      omega

mutual
/-- Compatibility condition under which `deepMerge` is associative (the
amendment forced by the counterexample below): no key held by all three
documents maps, at any shared nesting level, to a plain object in the first
and third document but a non-object in the second.  That is the one pattern
in which the middle override discards a subtree which the outer merge order
then resurrects. -/
def assocOk3 : Json → Json → Json → Bool
  | .obj a, .obj b, .obj c => assocOkF a b c
  | .obj _, _, .obj _ => false
  | _, _, _ => true
termination_by a b c => sizeOf a + sizeOf b + sizeOf c
decreasing_by
  simp
  omega

def assocOkF : JFields → JFields → JFields → Bool
  | .nil, _, _ => true
  | .cons k va tl, b, c =>
    (match hb : JFields.lookup b k, hc : JFields.lookup c k with
     | some vb, some vc => assocOk3 va vb vc
     | _, _ => true) && assocOkF tl b c
termination_by a b c => sizeOf a + sizeOf b + sizeOf c
decreasing_by
  · have h1 := JFields.lookup_sizeOf b k vb hb
    have h2 := JFields.lookup_sizeOf c k vc hc
    simp
    try omega
  · simp
    try omega
end

theorem assocOkF_lookup : ∀ (a b c : JFields) (k : String) (va vb vc : Json),
    assocOkF a b c = true → a.lookup k = some va → b.lookup k = some vb →
    c.lookup k = some vc → assocOk3 va vb vc = true
  | .nil, b, c, k, va, vb, vc, _, ha, _, _ => by simp [JFields.lookup] at ha
  | .cons k' va' tl, b, c, k, va, vb, vc, hok, ha, hb, hc => by
    rw [assocOkF] at hok
    rw [Bool.and_eq_true] at hok
    simp only [JFields.lookup] at ha
    by_cases hkk : (k' == k) = true
    · have : k' = k := beq_iff_eq.mp hkk
      subst this
      simp only [hkk, if_true, Option.some.injEq] at ha
      subst ha
      have := hok.1
      rw [hb, hc] at this
      exact this
    · simp only [Bool.not_eq_true] at hkk
      simp only [hkk, if_false] at ha
      exact assocOkF_lookup tl b c k va vb vc hok.2 ha hb hc

theorem mergePerKeySpec_none_right (x : Option Json) :
    mergePerKeySpec x none = x := by
  cases x with
  | none => rfl
  | some v => cases v <;> rfl

theorem mergePerKeySpec_none_left (y : Option Json) :
    mergePerKeySpec none y = y := by
  cases y with
  | none => rfl
  | some v => rfl

theorem mergePerKeySpec_obj_obj (a b : JFields) :
    mergePerKeySpec (some (.obj a)) (some (.obj b)) = some (.obj (deepMerge a b)) := rfl

theorem mergePerKeySpec_override_wins (bv ov : Json)
    (h : isPlainObject bv = false ∨ isPlainObject ov = false) :
    mergePerKeySpec (some bv) (some ov) = some ov := by
  cases bv <;> cases ov <;> simp_all [isPlainObject, mergePerKeySpec]

theorem json_obj_or_not (v : Json) :
    (∃ fs, v = .obj fs) ∨ isPlainObject v = false := by
  cases v <;> simp [isPlainObject]

theorem assocOk3_bad (a c : JFields) (vb : Json) (h : isPlainObject vb = false) :
    assocOk3 (.obj a) vb (.obj c) = false := by
  cases vb <;> simp_all [isPlainObject, assocOk3]

theorem assocOk3_all_obj (a b c : JFields) :
    assocOk3 (.obj a) (.obj b) (.obj c) = assocOkF a b c := by
  simp [assocOk3]

theorem deepMerge_assoc_aux : ∀ (n : Nat) (A B C : JFields),
    sizeOf A + sizeOf B + sizeOf C ≤ n →
    JFields.wfB A = true → JFields.wfB B = true → JFields.wfB C = true →
    assocOkF A B C = true →
    deepMerge (deepMerge A B) C = deepMerge A (deepMerge B C) := by
  intro n
  induction n with
  | zero =>
    intro A B C hsize _ _ _ _
    have h1 := JFields.sizeOf_pos A
    have h2 := JFields.sizeOf_pos B
    have h3 := JFields.sizeOf_pos C
    omega
  | succ n ih =>
    intro A B C hsize hwA hwB hwC hok
    have ndA := JFields.wfB_nodup A hwA
    have ndB := JFields.wfB_nodup B hwB
    have ndC := JFields.wfB_nodup C hwC
    apply JFields.ext_of_lookup
    · rw [keys_deepMerge, keys_deepMerge]
      apply List.Nodup.append
      · apply List.Nodup.append ndA (ndB.filter _)
        intro a haA haB
        have := (List.mem_filter.mp haB).2
        rw [(JFields.hasKey_iff_mem A a).mpr haA] at this
        simp at this
      · exact ndC.filter _
      · intro a haAB haC
        have hnot := (List.mem_filter.mp haC).2
        rw [hasKey_deepMerge] at hnot
        simp only [Bool.not_eq_true', Bool.or_eq_false_iff] at hnot
        rcases List.mem_append.mp haAB with hmem | hmem
        · rw [(JFields.hasKey_iff_mem A a).mpr hmem] at hnot
          exact Bool.true_eq_false.mp hnot.1
        · rw [(JFields.hasKey_iff_mem B a).mpr (List.mem_filter.mp hmem).1] at hnot
          exact Bool.true_eq_false.mp hnot.2
    · rw [keys_deepMerge, keys_deepMerge, keys_deepMerge, keys_deepMerge,
        List.filter_append, List.append_assoc]
      congr 1
      congr 1
      rw [List.filter_filter]
      apply List.filter_congr
      intro k _
      rw [hasKey_deepMerge]
      cases hA : A.hasKey k <;> cases hB : B.hasKey k <;> rfl
    · intro k
      rw [lookup_deepMerge, lookup_deepMerge, lookup_deepMerge, lookup_deepMerge]
      cases hA : A.lookup k with
      | none =>
        rw [mergePerKeySpec_none_left, mergePerKeySpec_none_left]
      | some va =>
        cases hB : B.lookup k with
        | none =>
          rw [mergePerKeySpec_none_right, mergePerKeySpec_none_left]
        | some vb =>
          cases hC : C.lookup k with
          | none =>
            rw [mergePerKeySpec_none_right, mergePerKeySpec_none_right]
          | some vc =>
            rcases json_obj_or_not va with ⟨a', rfl⟩ | hva
            · rcases json_obj_or_not vb with ⟨b', rfl⟩ | hvb
              · rcases json_obj_or_not vc with ⟨c', rfl⟩ | hvc
                · -- all three plain objects: recurse
                  rw [mergePerKeySpec_obj_obj, mergePerKeySpec_obj_obj,
                    mergePerKeySpec_obj_obj, mergePerKeySpec_obj_obj]
                  have sA := JFields.lookup_sizeOf A k _ hA
                  have sB := JFields.lookup_sizeOf B k _ hB
                  have sC := JFields.lookup_sizeOf C k _ hC
                  simp only [Json.obj.sizeOf_spec] at sA sB sC
                  have wA' := JFields.wfB_lookup A k _ hwA hA
                  have wB' := JFields.wfB_lookup B k _ hwB hB
                  have wC' := JFields.wfB_lookup C k _ hwC hC
                  simp only [Json.wfB] at wA' wB' wC'
                  have hok' := assocOkF_lookup A B C k _ _ _ hok hA hB hC
                  rw [assocOk3_all_obj] at hok'
                  exact congrArg (fun x => some (Json.obj x))
                    (ih a' b' c' (by omega) wA' wB' wC' hok')
                · -- A, B objects; C not: C wins on both sides
                  rw [mergePerKeySpec_obj_obj,
                    mergePerKeySpec_override_wins _ _ (Or.inr hvc),
                    mergePerKeySpec_override_wins _ _ (Or.inr hvc),
                    mergePerKeySpec_override_wins _ _ (Or.inr hvc)]
              · rcases json_obj_or_not vc with ⟨c', rfl⟩ | hvc
                · -- A, C objects; B not: excluded by the compatibility condition
                  have hok' := assocOkF_lookup A B C k _ _ _ hok hA hB hC
                  rw [assocOk3_bad a' c' vb hvb] at hok'
                  cases hok'
                · -- A object; B, C not
                  rw [mergePerKeySpec_override_wins (Json.obj a') vb (Or.inr hvb),
                    mergePerKeySpec_override_wins vb vc (Or.inl hvb),
                    mergePerKeySpec_override_wins (Json.obj a') vc (Or.inr hvc)]
            · rcases json_obj_or_not vb with ⟨b', rfl⟩ | hvb
              · rcases json_obj_or_not vc with ⟨c', rfl⟩ | hvc
                · -- B, C objects; A not
                  rw [mergePerKeySpec_override_wins va (Json.obj b') (Or.inl hva),
                    mergePerKeySpec_obj_obj,
                    mergePerKeySpec_override_wins va (Json.obj (deepMerge b' c')) (Or.inl hva)]
                · -- B object; A, C not
                  rw [mergePerKeySpec_override_wins va (Json.obj b') (Or.inl hva),
                    mergePerKeySpec_override_wins (Json.obj b') vc (Or.inr hvc),
                    mergePerKeySpec_override_wins va vc (Or.inl hva)]
              · -- neither A nor B object
                rw [mergePerKeySpec_override_wins va vb (Or.inl hva),
                  mergePerKeySpec_override_wins vb vc (Or.inl hvb),
                  mergePerKeySpec_override_wins va vc (Or.inl hva)]

/-- C4 counterexample: `deepMerge` is not right-biased associative.  With
`A = {k:{x:1}}`, `B = {k:2}`, `C = {k:{y:3}}`,
`deepMerge(deepMerge(A,B),C) = {k:{y:3}}` (B's scalar discards A's subtree,
then C replaces the scalar), while `deepMerge(A,deepMerge(B,C)) =
{k:{x:1,y:3}}` (merging B and C first makes C's object land on A's object and
resurrect `x`). -/
theorem deepMerge_not_assoc :
    deepMerge
        (deepMerge (.cons "k" (.obj (.cons "x" (.num 1) .nil)) .nil)
          (.cons "k" (.num 2) .nil))
        (.cons "k" (.obj (.cons "y" (.num 3) .nil)) .nil)
      ≠ deepMerge (.cons "k" (.obj (.cons "x" (.num 1) .nil)) .nil)
          (deepMerge (.cons "k" (.num 2) .nil)
            (.cons "k" (.obj (.cons "y" (.num 3) .nil)) .nil)) := by
  decide

/-- C4 (amended): `deepMerge(deepMerge(A,B),C) = deepMerge(A,deepMerge(B,C))`
holds for well-formed documents provided no key shared by all three maps, at
any nesting level, to a plain object in A and C but a non-object in B — the
exact pattern of the counterexample, in which the middle document overrides a
subtree that the right-nested order resurrects. -/
theorem deepMerge_assoc_of_compat (A B C : JFields)
    (hwA : JFields.wfB A = true) (hwB : JFields.wfB B = true)
    (hwC : JFields.wfB C = true) (hok : assocOkF A B C = true) :
    deepMerge (deepMerge A B) C = deepMerge A (deepMerge B C) :=
  deepMerge_assoc_aux (sizeOf A + sizeOf B + sizeOf C) A B C le_rfl hwA hwB hwC hok

/-- Witness for the amended C4 at `A = {k:{x:1}}`, `B = {k:{x:2}}`,
`C = {k:3}`. -/
theorem deepMerge_assoc_of_compat_witness :
    deepMerge
        (deepMerge (.cons "k" (.obj (.cons "x" (.num 1) .nil)) .nil)
          (.cons "k" (.obj (.cons "x" (.num 2) .nil)) .nil))
        (.cons "k" (.num 3) .nil)
      = deepMerge (.cons "k" (.obj (.cons "x" (.num 1) .nil)) .nil)
          (deepMerge (.cons "k" (.obj (.cons "x" (.num 2) .nil)) .nil)
            (.cons "k" (.num 3) .nil)) :=
  deepMerge_assoc_of_compat
    (.cons "k" (.obj (.cons "x" (.num 1) .nil)) .nil)
    (.cons "k" (.obj (.cons "x" (.num 2) .nil)) .nil)
    (.cons "k" (.num 3) .nil)
    (by decide) (by decide) (by decide)
    (by simp [assocOkF, assocOk3, JFields.lookup])

/-- String comparison used by JavaScript `Array.prototype.sort`: lexicographic
on code units (code points coincide for the keys involved). -/
def charsLt : List Char → List Char → Bool
  | [], [] => false
  | [], _ :: _ => true
  | _ :: _, [] => false
  | c :: cs, d :: ds =>
    if c.val < d.val then true
    else if d.val < c.val then false
    else charsLt cs ds

def strLtB (a b : String) : Bool := charsLt a.data b.data

def insertSorted (x : String) : List String → List String
  | [] => [x]
  | y :: ys => if strLtB x y then x :: y :: ys else y :: insertSorted x ys

/-- `Array.from(set).sort()` in `collectDiffLines`: insertion sort; on the
deduplicated key set this produces the ascending key order. -/
def sortStrings : List String → List String
  | [] => []
  | x :: xs => insertSorted x (sortStrings xs)

/-- The `allKeys` set of `collectDiffLines`: union of the keys of the three
documents, deduplicated, in sorted order. -/
def sortedUnionKeys (global merged project : JFields) : List String :=
  sortStrings ((global.keys ++ merged.keys ++ project.keys).eraseDups)

def escapeChar (c : Char) : List Char :=
  if c = '"' then ['\\', '"']
  else if c = '\\' then ['\\', '\\']
  else if c = '\n' then ['\\', 'n']
  else if c = '\t' then ['\\', 't']
  else if c = '\r' then ['\\', 'r']
  else [c]

def escapeChars : List Char → List Char
  | [] => []
  | c :: cs => escapeChar c ++ escapeChars cs

/-- `JSON.stringify` of a string: quoted, with the escapes relevant here
(the control-character escapes below ` ` other than the listed ones are
not modelled; no verified document contains them). -/
def jsonQuote (s : String) : String :=
  "\"" ++ String.mk (escapeChars s.data) ++ "\""

mutual
/-- `JSON.stringify`, as used by `collectDiffLines` for structural value
comparison (numbers are integers in this model). -/
def stringify : Json → String
  | .null => "null"
  | .bool b => if b then "true" else "false"
  | .num n => toString n
  | .str s => jsonQuote s
  | .arr xs => "[" ++ stringifyList xs ++ "]"
  | .obj fs => "\x7b" ++ stringifyFields fs ++ "\x7d"

def stringifyList : JList → String
  | .nil => ""
  | .cons x .nil => stringify x
  | .cons x (.cons y tl) => stringify x ++ "," ++ stringifyList (.cons y tl)

def stringifyFields : JFields → String
  | .nil => ""
  | .cons k v .nil => jsonQuote k ++ ":" ++ stringify v
  | .cons k v (.cons k' v' tl) =>
    jsonQuote k ++ ":" ++ stringify v ++ "," ++ stringifyFields (.cons k' v' tl)
end

inductive DiffType where
  | unchanged
  | added
  | removed
  | modified
deriving Repr, DecidableEq

/-- `DiffLine` from `merge-config.ts`; absent (`undefined`) value slots are
`none`. -/
structure DiffLine where
  type : DiffType
  key : String
  path : String
  globalValue : Option Json
  projectValue : Option Json
  mergedValue : Option Json
deriving Repr, DecidableEq

/-- The branch of `collectDiffLines` taken when both the global and the merged
document hold a plain object at the key, after the nested recursion has been
computed: the parent line is `modified` when the key is present in the project
document and the nested diff is non-empty, else `unchanged`. -/
def nestedCaseLine (key currentPath : String) (inProject : Bool)
    (projectVal : Option Json) (go mo : JFields) (nestedDiff : List DiffLine) :
    List DiffLine :=
  if nestedDiff.length > 0 then
    [{ type := if inProject then .modified else .unchanged, key := key,
       path := currentPath, globalValue := some (.obj go),
       projectValue := projectVal, mergedValue := some (.obj mo) }]
  else
    [{ type := .unchanged, key := key, path := currentPath,
       globalValue := none, projectValue := none,
       mergedValue := some (.obj mo) }]

/-- The non-object branch of `collectDiffLines` for one key: added when only
the project has it, modified when both sides have it with different
`JSON.stringify` serializations, unchanged otherwise. -/
def flatCaseLine (key currentPath : String) (globalVal projectVal mergedVal : Option Json) :
    List DiffLine :=
  let inGlobal := globalVal.isSome
  let inProject := projectVal.isSome
  if inProject && !inGlobal then
    [{ type := .added, key := key, path := currentPath,
       globalValue := none, projectValue := projectVal, mergedValue := mergedVal }]
  else if inProject && inGlobal then
    if (globalVal.map stringify) != (projectVal.map stringify) then
      [{ type := .modified, key := key, path := currentPath,
         globalValue := globalVal, projectValue := projectVal,
         mergedValue := mergedVal }]
    else
      [{ type := .unchanged, key := key, path := currentPath,
         globalValue := none, projectValue := none, mergedValue := mergedVal }]
  else
    [{ type := .unchanged, key := key, path := currentPath,
       globalValue := globalVal, projectValue := none, mergedValue := mergedVal }]

/-- `currentPath` of `collectDiffLines`:
`pathPrefix ? pathPrefix + "." + key : key` (the empty string is falsy). -/
def childPath (pathAcc key : String) : String :=
  if pathAcc == "" then key else pathAcc ++ "." ++ key

/-- The key loop of `collectDiffLines` (`pathAcc` is `pathPrefix` in the
source): one entry of `DiffLine`s per key of the sorted key union, recursing
into the nested level when both the global and the merged document hold a
plain object at the key (`nestedProject` degrades to `{}` when the project
value is not a plain object). -/
def collectGo (global merged project : JFields) (pathAcc : String) :
    List String → List DiffLine
  | [] => []
  | key :: rest =>
    (match hg : global.lookup key, hm : merged.lookup key,
         hp : project.lookup key with
     | some (.obj go), some (.obj mo), some (.obj po) =>
       nestedCaseLine key (childPath pathAcc key) (project.lookup key).isSome
         (project.lookup key) go mo
         (collectGo go mo po (childPath pathAcc key) (sortedUnionKeys go mo po))
     | some (.obj go), some (.obj mo), _ =>
       nestedCaseLine key (childPath pathAcc key) (project.lookup key).isSome
         (project.lookup key) go mo
         (collectGo go mo .nil (childPath pathAcc key) (sortedUnionKeys go mo .nil))
     | hgv, hmv, _ =>
       flatCaseLine key (childPath pathAcc key) hgv (project.lookup key) hmv)
    ++ collectGo global merged project pathAcc rest
termination_by keysLeft =>
  (sizeOf global + sizeOf merged + sizeOf project, keysLeft.length)
decreasing_by
  · apply Prod.Lex.left
    have h1 := JFields.lookup_sizeOf _ _ _ hg
    have h2 := JFields.lookup_sizeOf _ _ _ hm
    have h3 := JFields.lookup_sizeOf _ _ _ hp
    simp at h1 h2 h3
    omega
  · apply Prod.Lex.left
    have h1 := JFields.lookup_sizeOf _ _ _ hg
    have h2 := JFields.lookup_sizeOf _ _ _ hm
    have h3 := JFields.sizeOf_pos project
    simp at h1 h2
    simp
    omega
  · apply Prod.Lex.right
    simp

/-- `collectDiffLines` from `merge-config.ts`: iterate the sorted union of the
three documents' keys. -/
def collectDiffLines (global merged project : JFields) (pathAcc : String) :
    List DiffLine :=
  collectGo global merged project pathAcc (sortedUnionKeys global merged project)

/-- `"  ".repeat(indentLevel)`. -/
def indentStr (indentLevel : Nat) : String :=
  String.join (List.replicate indentLevel "  ")

mutual
/-- `formatJsonValue` from `merge-config.ts` on a defined value: short arrays
and objects render inline (joined width under 60), longer ones render
multi-line with nested indentation. -/
def formatJsonValue : Json → Nat → String
  | .null, _ => "null"
  | .str s, _ => jsonQuote s
  | .num n, _ => toString n
  | .bool b, _ => if b then "true" else "false"
  | .arr .nil, _ => "[]"
  | .arr (.cons x tl), indentLevel =>
    let items := formatItems (.cons x tl) (indentLevel + 1)
    if (String.intercalate ", " items).length < 60 then
      "[" ++ String.intercalate ", " items ++ "]"
    else
      "[\n" ++
        String.intercalate ",\n" (items.map (fun item => indentStr (indentLevel + 1) ++ item)) ++
        "\n" ++ indentStr indentLevel ++ "]"
  | .obj .nil, _ => "\x7b\x7d"
  | .obj (.cons k v tl), indentLevel =>
    let pairs := formatPairs (.cons k v tl) (indentLevel + 1)
    if (String.intercalate ", " pairs).length < 60 then
      "\x7b " ++ String.intercalate ", " pairs ++ " \x7d"
    else
      "\x7b\n" ++
        String.intercalate ",\n" (pairs.map (fun pair => indentStr (indentLevel + 1) ++ pair)) ++
        "\n" ++ indentStr indentLevel ++ "\x7d"

def formatItems : JList → Nat → List String
  | .nil, _ => []
  | .cons x tl, n => formatJsonValue x n :: formatItems tl n

def formatPairs : JFields → Nat → List String
  | .nil, _ => []
  | .cons k v tl, n => (jsonQuote k ++ ": " ++ formatJsonValue v n) :: formatPairs tl n
end

/-- `formatJsonValue` on a possibly-`undefined` value. -/
def formatJsonValueOpt : Option Json → Nat → String
  | none, _ => "undefined"
  | some v, n => formatJsonValue v n

/-- `formatDiffLines` from `merge-config.ts`.  The chalk color wrappers are
the identity here: they only add terminal escape codes around the text (the
repository's own tests mock them to the identity as well); the `+`/`-`
markers and ` // [project]` / ` // [global]` side annotations are the
structural content.  A `modified` line renders twice (superseded global value,
then winning value); the source renders the second line from `mergedValue`. -/
def formatDiffLines (diffLines : List DiffLine) (indentLevel : Nat) : List String :=
  diffLines.enum.flatMap (fun p =>
    let diff := p.2
    let indent := indentStr indentLevel
    let comma := if p.1 == diffLines.length - 1 then "" else ","
    match diff.type with
    | .added =>
      [indent ++ "+ \"" ++ diff.key ++ "\": " ++
        formatJsonValueOpt diff.mergedValue indentLevel ++ comma ++ " // [project]"]
    | .modified =>
      [indent ++ "- \"" ++ diff.key ++ "\": " ++
        formatJsonValueOpt diff.globalValue indentLevel ++ " // [global]",
       indent ++ "+ \"" ++ diff.key ++ "\": " ++
        formatJsonValueOpt diff.mergedValue indentLevel ++ comma ++ " // [project]"]
    | _ =>
      [indent ++ "\"" ++ diff.key ++ "\": " ++
        formatJsonValueOpt diff.mergedValue indentLevel ++ comma])

/-- The unchanged-only rendering: what `formatDiffLines` produces when every
line is classified `unchanged` — one plain `"key": value` line per diff line,
with no `+`/`-` marker and no side annotation. -/
def renderUnchangedLines (diffLines : List DiffLine) (indentLevel : Nat) : List String :=
  diffLines.enum.map (fun p =>
    indentStr indentLevel ++ "\"" ++ p.2.key ++ "\": " ++
      formatJsonValueOpt p.2.mergedValue indentLevel ++
      (if p.1 == diffLines.length - 1 then "" else ","))

/-- `generateDiffOutput` from `merge-config.ts` (chalk wrappers are the
identity, as above). -/
def generateDiffOutput (global merged projectOverrides : JFields) : String :=
  String.intercalate "\n"
    (["// Merged configuration (project overrides global)",
      "// " ++ String.join (List.replicate 50 "-"),
      "\x7b"]
     ++ formatDiffLines (collectDiffLines global merged projectOverrides "") 1
     ++ ["\x7d"])

def charsStartWith : List Char → List Char → Bool
  | [], _ => true
  | _ :: _, [] => false
  | c :: cs, d :: ds => c == d && charsStartWith cs ds

def charsContain (pat : List Char) : List Char → Bool
  | [] => charsStartWith pat []
  | d :: ds => charsStartWith pat (d :: ds) || charsContain pat ds

/-- Substring test (`String.includes` in JavaScript terms). -/
def containsSub (s pat : String) : Bool := charsContain pat.data s.data

/-- A value that is a plain key-value document with at least one key. -/
def nonEmptyObj : Json → Bool
  | .obj (.cons _ _ _) => true
  | _ => false

/-- A document none of whose top-level values is a non-empty plain object
(scalars, arrays and empty objects are allowed). -/
def flatValues : JFields → Bool
  | .nil => true
  | .cons _ v tl => !nonEmptyObj v && flatValues tl

theorem flatValues_lookup : ∀ (fs : JFields) (k : String) (v : Json),
    flatValues fs = true → fs.lookup k = some v → nonEmptyObj v = false
  | .nil, k, v, _, hl => by simp [JFields.lookup] at hl
  | .cons k' v' tl, k, v, hf, hl => by
    simp only [flatValues, Bool.and_eq_true, Bool.not_eq_true'] at hf
    simp only [JFields.lookup] at hl
    by_cases hkk : (k' == k) = true
    · simp only [hkk, if_true, Option.some.injEq] at hl
      exact hl ▸ hf.1
    · simp only [Bool.not_eq_true] at hkk
      simp only [hkk, if_false] at hl
      exact flatValues_lookup tl k v hf.2 hl

theorem collectGo_nil_nil_nil (pathAcc : String) :
    ∀ ks, collectGo .nil .nil .nil pathAcc ks = ks.flatMap
      (fun key => flatCaseLine key (childPath pathAcc key) none none none)
  | [] => by simp [collectGo]
  | key :: rest => by
    rw [collectGo]
    simp only [JFields.lookup]
    rw [collectGo_nil_nil_nil pathAcc rest]
    simp [List.flatMap_cons]

theorem collectGo_self_unchanged (D : JFields) (hflat : flatValues D = true)
    (pathAcc : String) :
    ∀ ks, ∀ l ∈ collectGo D D D pathAcc ks, l.type = .unchanged
  | [], l, hl => by simp [collectGo] at hl
  | key :: rest, l, hl => by
    rw [collectGo] at hl
    rw [List.mem_append] at hl
    rcases hl with hl | hl
    · split at hl
      · -- both global and merged hold objects (project too): flatness forces {}
        rename_i go mo po hg hm hp
        have hgo := flatValues_lookup D key _ hflat hg
        cases go with
        | cons k' v' tl => simp [nonEmptyObj] at hgo
        | nil =>
          rw [hg] at hm hp
          simp only [Option.some.injEq, Json.obj.injEq] at hm hp
          subst hm
          subst hp
          rw [show sortedUnionKeys JFields.nil JFields.nil JFields.nil = [] from rfl] at hl
          rw [show collectGo JFields.nil JFields.nil JFields.nil
              (childPath pathAcc key) [] = [] from by simp [collectGo]] at hl
          simp only [nestedCaseLine, List.length_nil, gt_iff_lt,
            lt_self_iff_false, if_false, List.mem_singleton] at hl
          rw [hl]
      · -- objects in global and merged but a non-object project value:
        -- impossible when all three documents are the same
        rename_i go mo hg hm hnot
        exact (hnot go hg).elim
      · -- flat branch: identical values on every side are unchanged
        cases hD : D.lookup key with
        | none =>
          rw [hD] at hl
          simp only [flatCaseLine, Option.isSome_none, Bool.false_and,
            Bool.and_false, Bool.false_eq_true, if_false, List.mem_singleton] at hl
          rw [hl]
        | some v =>
          rw [hD] at hl
          simp only [flatCaseLine, Option.isSome_some, Option.map_some',
            Bool.not_true, Bool.and_false, Bool.and_true, bne_self_eq_false,
            Bool.false_eq_true, if_false, if_true, List.mem_singleton] at hl
          rw [hl]
    · exact collectGo_self_unchanged D hflat pathAcc rest l hl

theorem flatMap_eq_map_of_singleton {α β : Type} (l : List α) (f : α → List β)
    (g : α → β) (h : ∀ x ∈ l, f x = [g x]) : l.flatMap f = l.map g := by
  induction l with
  | nil => rfl
  | cons x xs ih =>
    rw [List.flatMap_cons, List.map_cons, h x (List.mem_cons_self x xs),
      ih (fun y hy => h y (List.mem_cons_of_mem x hy))]
    rfl

theorem formatDiffLines_all_unchanged (lines : List DiffLine) (n : Nat)
    (h : ∀ l ∈ lines, l.type = .unchanged) :
    formatDiffLines lines n = renderUnchangedLines lines n := by
  rw [formatDiffLines, renderUnchangedLines]
  apply flatMap_eq_map_of_singleton
  intro p hp
  have hmem : p.2 ∈ lines := by
    have := List.mem_enum_iff_get?.mp hp
    exact List.get?_mem this
  have ht : p.2.type = DiffType.unchanged := h p.2 hmem
  simp only [ht]

/-- C1 counterexample: for the structurally identical documents
`D = {a:{b:1}}` used as base, merged and overrides, the rendered diff text
contains a modified-marker line (`- "a"`) and both side annotations
(` // [global]`, ` // [project]`), because `collectDiffLines` classifies a
nested-object key as modified whenever the nested diff is non-empty — and the
nested diff also counts unchanged lines.  This also refutes the second part of
the claim: the parent key `a` is classified modified although no nested key
differs between base and overrides. -/
theorem generateDiffOutput_identical_nested_marked :
    containsSub
        (generateDiffOutput
          (.cons "a" (.obj (.cons "b" (.num 1) .nil)) .nil)
          (.cons "a" (.obj (.cons "b" (.num 1) .nil)) .nil)
          (.cons "a" (.obj (.cons "b" (.num 1) .nil)) .nil))
        " // [project]" = true
    ∧ containsSub
        (generateDiffOutput
          (.cons "a" (.obj (.cons "b" (.num 1) .nil)) .nil)
          (.cons "a" (.obj (.cons "b" (.num 1) .nil)) .nil)
          (.cons "a" (.obj (.cons "b" (.num 1) .nil)) .nil))
        " // [global]" = true
    ∧ containsSub
        (generateDiffOutput
          (.cons "a" (.obj (.cons "b" (.num 1) .nil)) .nil)
          (.cons "a" (.obj (.cons "b" (.num 1) .nil)) .nil)
          (.cons "a" (.obj (.cons "b" (.num 1) .nil)) .nil))
        "- \"a\"" = true := by
  have hc :
      collectDiffLines
        (.cons "a" (.obj (.cons "b" (.num 1) .nil)) .nil)
        (.cons "a" (.obj (.cons "b" (.num 1) .nil)) .nil)
        (.cons "a" (.obj (.cons "b" (.num 1) .nil)) .nil) ""
      = [{ type := .modified, key := "a", path := "a",
           globalValue := some (.obj (.cons "b" (.num 1) .nil)),
           projectValue := some (.obj (.cons "b" (.num 1) .nil)),
           mergedValue := some (.obj (.cons "b" (.num 1) .nil)) }] := by
    simp [collectDiffLines, collectGo, sortedUnionKeys, sortStrings, insertSorted,
      JFields.keys, JFields.lookup, nestedCaseLine, flatCaseLine, stringify, childPath]
  rw [generateDiffOutput, hc]
  decide

/-- C1 (amended): for structurally identical documents `D` none of whose
top-level values is a non-empty plain key-value document,
`generateDiffOutput(D, D, D)` carries no added or modified classification and
renders every line through the plain `"key": value` branch — no `+`/`-`
marker, no ` // [project]` / ` // [global]` side annotation.  (The original
unrestricted claim fails: a key holding a non-empty plain object in both base
and overrides is classified modified even when no nested key differs, because
the nested diff counts unchanged lines; see the counterexample.) -/
theorem diff_identical_flat_no_markers (D : JFields)
    (hflat : flatValues D = true) :
    (∀ l ∈ collectDiffLines D D D "", l.type = DiffType.unchanged)
    ∧ formatDiffLines (collectDiffLines D D D "") 1
        = renderUnchangedLines (collectDiffLines D D D "") 1 := by
  have hall : ∀ l ∈ collectDiffLines D D D "", l.type = DiffType.unchanged := by
    intro l hl
    exact collectGo_self_unchanged D hflat "" (sortedUnionKeys D D D) l hl
  exact ⟨hall, formatDiffLines_all_unchanged _ 1 hall⟩

/-- Witness for the amended C1 at the flat document `{a: 1, b: [2], c: {}}`. -/
theorem diff_identical_flat_no_markers_witness :
    formatDiffLines
        (collectDiffLines
          (.cons "a" (.num 1) (.cons "b" (.arr (.cons (.num 2) .nil))
            (.cons "c" (.obj .nil) .nil)))
          (.cons "a" (.num 1) (.cons "b" (.arr (.cons (.num 2) .nil))
            (.cons "c" (.obj .nil) .nil)))
          (.cons "a" (.num 1) (.cons "b" (.arr (.cons (.num 2) .nil))
            (.cons "c" (.obj .nil) .nil))) "") 1
      = renderUnchangedLines
        (collectDiffLines
          (.cons "a" (.num 1) (.cons "b" (.arr (.cons (.num 2) .nil))
            (.cons "c" (.obj .nil) .nil)))
          (.cons "a" (.num 1) (.cons "b" (.arr (.cons (.num 2) .nil))
            (.cons "c" (.obj .nil) .nil)))
          (.cons "a" (.num 1) (.cons "b" (.arr (.cons (.num 2) .nil))
            (.cons "c" (.obj .nil) .nil))) "") 1 :=
  (diff_identical_flat_no_markers
    (.cons "a" (.num 1) (.cons "b" (.arr (.cons (.num 2) .nil))
      (.cons "c" (.obj .nil) .nil)))
    (by decide)).2

inductive ConfigType where
  | omo
  | slim
deriving Repr, DecidableEq

/-- The project run-control record (`.omorc`): `{ activeProfileId, type? }`.
An absent optional field is `none`. -/
structure ProjectRc where
  activeProfileId : Option String
  type : Option ConfigType := none
deriving Repr, DecidableEq

/-- A profile of the global store index (`{id, name, config, createdAt,
updatedAt}`, timestamps as ISO strings). -/
structure Profile where
  id : String
  name : String
  config : Json
  createdAt : String
  updatedAt : String
deriving Repr, DecidableEq

/-- The global store index (`{storeVersion, activeProfileId, profiles}`). -/
structure StoreIndex where
  storeVersion : String
  activeProfileId : Option String
  profiles : List Profile
deriving Repr, DecidableEq

/-- Modelled from the spec: `StoreManager.deleteProfile` — the store module
itself is not under `src/` (only its callers and tests are).  Per §4.2 it
removes the index entry for `id` and, when the deleted profile was the active
one, clears `activeProfileId` to null as a side effect of the same mutation;
the updated index is what `saveIndex` persists and a reload observes. -/
def deleteProfile (index : StoreIndex) (id : String) : StoreIndex :=
  { index with
    profiles := index.profiles.filter (fun p => p.id != id),
    activeProfileId :=
      if index.activeProfileId = some id then none else index.activeProfileId }

/-- The project-scope state transition of `handleOmoRm` (`rm.ts`): after
`deleteProfileConfig`, the handler loads the rc and, when the deleted profile
is the recorded active one, saves `{ activeProfileId: null }` (dropping any
`type` field); otherwise the rc file is left as it was.  The result is the rc
on disk after the operation (`none` = no rc file). -/
def handleOmoRmProjectRc (rc : Option ProjectRc) (profileId : String) :
    Option ProjectRc :=
  match rc with
  | some r =>
    if r.activeProfileId = some profileId then
      some { activeProfileId := none }
    else
      some r
  | none => none

/-- Modelled from the spec: `StoreManager.syncProfiles` (store module not
under `src/`).  Per §4.2 it scans the configs directory for files not
referenced by the index and adds a minimal profile entry for each orphan (id
and name from the filename, timestamps set to discovery time), persisting the
index only when something was added.  `orphanIds` are the filename stems found
in the configs directory. -/
def syncProfiles (index : StoreIndex) (orphanIds : List String) (now : String) :
    StoreIndex :=
  { index with
    profiles := index.profiles ++
      (orphanIds.filter
        (fun fid => !(index.profiles.any (fun p => p.id == fid)))).map
        (fun fid =>
          { id := fid, name := fid, config := Json.obj .nil,
            createdAt := now, updatedAt := now }) }

inductive Scope where
  | user
  | project
deriving Repr, DecidableEq

/-- The on-disk artifacts `handleOmoApply` can write: the merge target file,
the backup directory (as the list of backed-up contents), the global store
index, and the project rc record. -/
structure ApplyState where
  targetContent : Option String
  backups : List String
  index : StoreIndex
  rc : Option ProjectRc
deriving Repr, DecidableEq

/-- Outcome of an apply run: `exited` is the `process.exit(1)` path with the
messages reported to the console and the on-disk state at exit. -/
inductive ApplyOutcome where
  | exited (errors : List String) (state : ApplyState)
  | applied (state : ApplyState)
deriving Repr, DecidableEq

/-- State transitions of `handleOmoApply` (`apply.ts`), in source order:
`syncProfiles` on the global store first; then profile resolution and the raw
config read (modelled as the already-resolved `profile` and `configRaw`
inputs — reads, not writes); `JSON5.parse` and the external schema validator
are the collaborator parameters `parse` and `validate` (spec §6).  Only after
validation succeeds does it back up the existing target, write the new target
content behind a provenance header, and record the active profile (in the rc
for project scope — `saveRc({activeProfileId})` — or in the index for user
scope). -/
def handleOmoApply (scope : Scope) (s : ApplyState) (orphanIds : List String)
    (now : String) (profile : Option Profile) (configRaw : Option String)
    (parse : String → Option Json) (validate : Json → Bool × List String) :
    ApplyOutcome :=
  let s1 : ApplyState := { s with index := syncProfiles s.index orphanIds now }
  match profile with
  | none => .exited ["Profile not found"] s1
  | some prof =>
    match configRaw with
    | none => .exited ["Profile config file not found"] s1
    | some content =>
      match parse content with
      | none => .exited ["Failed to parse config as JSON/JSONC"] s1
      | some config =>
        let v := validate config
        if v.1 = false then
          .exited v.2 s1
        else
          let backups1 :=
            match s.targetContent with
            | some old => s.backups ++ [old]
            | none => s.backups
          let target1 :=
            some ("// Profile Name: " ++ prof.name ++ ", edited by omo-switch\n"
              ++ content)
          match scope with
          | .project =>
            .applied
              { s1 with
                backups := backups1
                targetContent := target1
                rc := some { activeProfileId := some prof.id } }
          | .user =>
            .applied
              { s1 with
                backups := backups1
                targetContent := target1
                index := { s1.index with activeProfileId := some prof.id } }

/-- `loadProjectRc` from `scope-resolver.ts`: `file` is the rc file content
when the file exists (`fs.existsSync`), and `parseRc` is `JSON.parse`
returning `none` when it throws (the `catch` branch returns null). -/
def loadProjectRc (file : Option String)
    (parseRc : String → Option ProjectRc) : Option ProjectRc :=
  match file with
  | none => none
  | some content =>
    match parseRc content with
    | some rc => some rc
    | none => none

/-- `{...a, ...b}` on JavaScript objects: `a`'s keys in order with `b`'s
values where present, then `b`'s remaining keys. -/
def spreadLeft : JFields → JFields → JFields
  | .nil, _ => .nil
  | .cons k v tl, b => .cons k ((b.lookup k).getD v) (spreadLeft tl b)

def restEntries (a : JFields) : JFields → JFields
  | .nil => .nil
  | .cons k v tl =>
    if a.hasKey k then restEntries a tl else .cons k v (restEntries a tl)

def spreadFields (a b : JFields) : JFields :=
  JFields.append (spreadLeft a b) (restEntries a b)

/-- Modelled from the spec: `DEFAULT_SETTINGS` lives in the store types module
which is not under `src/`; per the spec (§9) the global settings record is the
active-type toggle, defaulting to the primary mode (`"omo"`, as the
settings-manager tests assert). -/
def DEFAULT_SETTINGS : JFields :=
  .cons "activeType" (.str "omo") .nil

/-- `loadGlobalSettings` from `settings.ts`: default settings when the file is
absent; on a parse failure (`catch`) the defaults again; otherwise
`{...DEFAULT_SETTINGS, ...parsed}` so that every settings field exists. -/
def loadGlobalSettings (file : Option String)
    (parseSettings : String → Option JFields) : JFields :=
  match file with
  | none => DEFAULT_SETTINGS
  | some content =>
    match parseSettings content with
    | some parsed => spreadFields DEFAULT_SETTINGS parsed
    | none => DEFAULT_SETTINGS

/-- `findProjectRoot` from `scope-resolver.ts`.  A directory is its list of
path components deepest-first (`/a/b` is `["b", "a"]`), so the filesystem
root is `[]` and `path.dirname` is the list tail; `hasMarker d` models
`fs.existsSync(join(d, ".opencode")) && statSync(...).isDirectory()`.  The
walk checks each directory from the start upward and checks the root itself
last. -/
def findProjectRoot (hasMarker : List String → Bool) :
    List String → Option (List String)
  | [] => if hasMarker [] then some [] else none
  | dir@(_ :: parent) =>
    if hasMarker dir then some dir else findProjectRoot hasMarker parent

/-- `resolveProjectRoot` from `scope-resolver.ts`: the found root, else the
start directory itself (`startDir ?? cwd`). -/
def resolveProjectRoot (hasMarker : List String → Bool)
    (startDir : Option (List String)) (cwd : List String) : List String :=
  match findProjectRoot hasMarker (startDir.getD cwd) with
  | some root => root
  | none => startDir.getD cwd

/-- A directory entry as `cleanOldBackups` observes it: `readdirSync` name,
`statSync` directory flag and mtime, and whether `unlinkSync` succeeds
(`deletable = false` models a per-file deletion failure, which the source
swallows). -/
structure FileEntry where
  name : String
  isDir : Bool
  mtimeMs : Int
  deletable : Bool
deriving Repr, DecidableEq

/-- The file loop of `cleanOldBackups`: directories are skipped; an old
enough file is unlinked, counting only successes; a deletion failure is
swallowed and the loop continues with the remaining files. -/
def cleanGo (cutoffTime : Int) : List FileEntry → Nat
  | [] => 0
  | f :: rest =>
    if f.isDir then cleanGo cutoffTime rest
    else if f.mtimeMs < cutoffTime then
      (if f.deletable then 1 else 0) + cleanGo cutoffTime rest
    else cleanGo cutoffTime rest

/-- `cleanOldBackups` from `backup-cleaner.ts`: 0 when the backups directory
does not exist, else the number of files actually deleted, with the cutoff 30
days (`BACKUP_RETENTION_DAYS`) before `now` in milliseconds. -/
def cleanOldBackups (dir : Option (List FileEntry)) (now : Int) : Nat :=
  match dir with
  | none => 0
  | some files => cleanGo (now - 30 * 24 * 60 * 60 * 1000) files

theorem lookup_spreadLeft : ∀ (a b : JFields) (k : String),
    (spreadLeft a b).lookup k =
      match a.lookup k with
      | some v => some ((b.lookup k).getD v)
      | none => none
  | .nil, b, k => by simp [spreadLeft, JFields.lookup]
  | .cons k' v' tl, b, k => by
    simp only [spreadLeft, JFields.lookup]
    by_cases hkk : (k' == k) = true
    · have : k' = k := beq_iff_eq.mp hkk
      subst this
      simp [hkk]
    · simp only [Bool.not_eq_true] at hkk
      simp only [hkk, if_false]
      exact lookup_spreadLeft tl b k

theorem lookup_restEntries : ∀ (a b : JFields) (k : String),
    (restEntries a b).lookup k =
      if a.hasKey k then none else b.lookup k
  | a, .nil, k => by
    simp only [restEntries, JFields.lookup]
    split <;> rfl
  | a, .cons k' v' tl, k => by
    simp only [restEntries]
    by_cases hk' : a.hasKey k' = true
    · simp only [hk', if_true]
      rw [lookup_restEntries a tl k]
      by_cases hak : a.hasKey k = true
      · simp [hak]
      · simp only [Bool.not_eq_true] at hak
        simp only [hak, if_false]
        have : (k' == k) = false := by
          by_contra hcontra
          simp only [Bool.not_eq_false, beq_iff_eq] at hcontra
          rw [hcontra] at hk'
          simp [hk'] at hak
        simp [JFields.lookup, this]
    · simp only [Bool.not_eq_true] at hk'
      simp only [hk', if_false]
      by_cases hkk : (k' == k) = true
      · have : k' = k := beq_iff_eq.mp hkk
        subst this
        simp [JFields.lookup, hk']
      · simp only [Bool.not_eq_true] at hkk
        simp only [JFields.lookup, hkk, if_false]
        exact lookup_restEntries a tl k

theorem lookup_jfields_append : ∀ (x y : JFields) (k : String),
    (JFields.append x y).lookup k =
      match x.lookup k with
      | some v => some v
      | none => y.lookup k
  | .nil, y, k => by simp [JFields.append, JFields.lookup]
  | .cons k' v' tl, y, k => by
    simp only [JFields.append, JFields.lookup]
    by_cases hkk : (k' == k) = true
    · simp [hkk]
    · simp only [Bool.not_eq_true] at hkk
      simp only [hkk, if_false]
      exact lookup_jfields_append tl y k

theorem lookup_spreadFields (a b : JFields) (k : String) :
    (spreadFields a b).lookup k =
      match b.lookup k with
      | some v => some v
      | none => a.lookup k := by
  rw [spreadFields, lookup_jfields_append, lookup_spreadLeft, lookup_restEntries]
  cases ha : a.lookup k with
  | some v =>
    cases hb : b.lookup k with
    | some w => simp
    | none => simp
  | none =>
    have hhk : a.hasKey k = false := by simp [JFields.hasKey, ha]
    simp only [hhk, if_false]
    cases hb : b.lookup k <;> rfl

/-- C5: deleting the profile recorded as active clears the persisted
active-profile reference to null, in both scopes: the global
`deleteProfile` (spec-modelled, see its doc comment) leaves
`activeProfileId = none` in the index that `saveIndex` persists, and the
project branch of `handleOmoRm` saves an rc with `activeProfileId = null`
(and no `type` field) whenever the deleted id was the rc's active one.  The
returned records are what a subsequent `loadIndex` / `loadProjectRc`
observes. -/
theorem delete_active_profile_clears_active :
    (∀ (index : StoreIndex) (id : String),
        index.activeProfileId = some id →
        (deleteProfile index id).activeProfileId = none)
    ∧ (∀ (rc : ProjectRc) (id : String),
        rc.activeProfileId = some id →
        handleOmoRmProjectRc (some rc) id
          = some { activeProfileId := none, type := none }) := by
  constructor
  · intro index id h
    simp [deleteProfile, h]
  · intro rc id h
    simp [handleOmoRmProjectRc, h]

/-- Witness for C5: a one-profile index with that profile active, and an rc
pointing at the deleted profile. -/
theorem delete_active_profile_clears_active_witness :
    (deleteProfile
        { storeVersion := "1.0.0"
          activeProfileId := some "default"
          profiles := [{ id := "default", name := "Default"
                         config := Json.obj .nil, createdAt := "2024-01-01"
                         updatedAt := "2024-01-01" }] }
        "default").activeProfileId = none
    ∧ handleOmoRmProjectRc
        (some { activeProfileId := some "p1", type := some ConfigType.slim })
        "p1" = some { activeProfileId := none, type := none } :=
  ⟨delete_active_profile_clears_active.1
      { storeVersion := "1.0.0"
        activeProfileId := some "default"
        profiles := [{ id := "default", name := "Default"
                       config := Json.obj .nil, createdAt := "2024-01-01"
                       updatedAt := "2024-01-01" }] }
      "default" rfl,
   delete_active_profile_clears_active.2
      { activeProfileId := some "p1", type := some ConfigType.slim }
      "p1" rfl⟩

/-- C6 counterexample: an apply run whose profile content fails validation
can still change the persisted store index, because `handleOmoApply` runs
`syncProfiles` on the global store before validating — here the orphan config
file `extra` is added to (and persisted in) the index even though validation
fails and the run exits reporting the validator's messages.  The target file,
backups and rc are untouched. -/
theorem apply_invalid_sync_changes_index :
    handleOmoApply Scope.user
        { targetContent := none
          backups := []
          index := { storeVersion := "1.0.0", activeProfileId := none, profiles := [] }
          rc := none }
        ["extra"] "2024-01-01"
        (some { id := "extra", name := "extra", config := Json.obj .nil
                createdAt := "2024-01-01", updatedAt := "2024-01-01" })
        (some "\x7b\x7d")
        (fun _ => some (Json.obj .nil))
        (fun _ => (false, ["/agents: must be object"]))
      = ApplyOutcome.exited ["/agents: must be object"]
          { targetContent := none
            backups := []
            index := { storeVersion := "1.0.0"
                       activeProfileId := none
                       profiles := [{ id := "extra", name := "extra"
                                      config := Json.obj .nil
                                      createdAt := "2024-01-01"
                                      updatedAt := "2024-01-01" }] }
            rc := none }
    ∧ ({ storeVersion := "1.0.0"
         activeProfileId := none
         profiles := [{ id := "extra", name := "extra"
                        config := Json.obj .nil
                        createdAt := "2024-01-01"
                        updatedAt := "2024-01-01" }] } : StoreIndex)
        ≠ { storeVersion := "1.0.0", activeProfileId := none, profiles := [] } := by
  constructor
  · rfl
  · decide

/-- C6 (amended): when the chosen profile's parsed content fails schema
validation, `handleOmoApply` exits reporting exactly the validator's
field-level messages, and the target file, the backup directory and the
project rc record are left unchanged; the store index is unchanged except for
the entries added by the pre-validation `syncProfiles` orphan reconciliation
(in particular it is fully unchanged whenever the configs directory holds no
orphan files, second conjunct). -/
theorem apply_invalid_aborts_before_write :
    ∀ (scope : Scope) (s : ApplyState) (orphanIds : List String) (now : String)
      (prof : Profile) (content : String) (parse : String → Option Json)
      (validate : Json → Bool × List String) (config : Json)
      (errs : List String),
      parse content = some config →
      validate config = (false, errs) →
      handleOmoApply scope s orphanIds now (some prof) (some content)
          parse validate
        = ApplyOutcome.exited errs
            { s with index := syncProfiles s.index orphanIds now }
      ∧ syncProfiles s.index [] now = s.index := by
  intro scope s orphanIds now prof content parse validate config errs hparse hval
  constructor
  · rw [handleOmoApply]
    rw [hparse]
    simp [hval]
  · simp [syncProfiles]

/-- Witness for the amended C6. -/
theorem apply_invalid_aborts_before_write_witness :
    handleOmoApply Scope.project
        { targetContent := some "old"
          backups := ["b0"]
          index := { storeVersion := "1.0.0", activeProfileId := none, profiles := [] }
          rc := some { activeProfileId := some "p0" } }
        [] "2024-01-01"
        (some { id := "p1", name := "P1", config := Json.obj .nil
                createdAt := "2024-01-01", updatedAt := "2024-01-01" })
        (some "\x7b\x7d")
        (fun _ => some (Json.obj .nil))
        (fun _ => (false, ["/x: must be string"]))
      = ApplyOutcome.exited ["/x: must be string"]
          { targetContent := some "old"
            backups := ["b0"]
            index := syncProfiles
              { storeVersion := "1.0.0", activeProfileId := none, profiles := [] }
              [] "2024-01-01"
            rc := some { activeProfileId := some "p0" } } := by
  exact (apply_invalid_aborts_before_write Scope.project
    { targetContent := some "old"
      backups := ["b0"]
      index := { storeVersion := "1.0.0", activeProfileId := none, profiles := [] }
      rc := some { activeProfileId := some "p0" } }
    [] "2024-01-01"
    { id := "p1", name := "P1", config := Json.obj .nil
      createdAt := "2024-01-01", updatedAt := "2024-01-01" }
    "\x7b\x7d"
    (fun _ => some (Json.obj .nil))
    (fun _ => (false, ["/x: must be string"]))
    (Json.obj .nil) ["/x: must be string"] rfl rfl).1

/-- C7: an unparseable rc/settings file is treated exactly like an absent
one — `loadProjectRc` returns null (its absent-file value) and
`loadGlobalSettings` returns the default settings record — and no parse error
reaches the caller (both loaders are total). -/
theorem load_corrupt_falls_back_to_defaults :
    ∀ (parseRc : String → Option ProjectRc)
      (parseSettings : String → Option JFields) (rcContent sContent : String),
      parseRc rcContent = none →
      parseSettings sContent = none →
      loadProjectRc (some rcContent) parseRc = loadProjectRc none parseRc
      ∧ loadProjectRc none parseRc = none
      ∧ loadGlobalSettings (some sContent) parseSettings
          = loadGlobalSettings none parseSettings
      ∧ loadGlobalSettings none parseSettings = DEFAULT_SETTINGS := by
  intro parseRc parseSettings rcContent sContent hrc hs
  refine ⟨?_, rfl, ?_, rfl⟩
  · simp [loadProjectRc, hrc]
  · simp [loadGlobalSettings, hs]

/-- Witness for C7: a parser that rejects everything, applied to a corrupt
content string. -/
theorem load_corrupt_falls_back_to_defaults_witness :
    loadProjectRc (some "not valid json") (fun _ => none)
        = loadProjectRc none (fun _ => none)
    ∧ loadProjectRc none (fun _ => (none : Option ProjectRc)) = none
    ∧ loadGlobalSettings (some "not valid json") (fun _ => none)
        = loadGlobalSettings none (fun _ => none)
    ∧ loadGlobalSettings none (fun _ => (none : Option JFields))
        = DEFAULT_SETTINGS :=
  load_corrupt_falls_back_to_defaults (fun _ => none) (fun _ => none)
    "not valid json" "not valid json" rfl rfl

theorem findProjectRoot_none_of_no_marker (hasMarker : List String → Bool) :
    ∀ dir : List String, (∀ d, List.IsSuffix d dir → hasMarker d = false) →
      findProjectRoot hasMarker dir = none
  | [], h => by
    simp [findProjectRoot, h [] (List.suffix_refl [])]
  | x :: parent, h => by
    rw [findProjectRoot]
    rw [h (x :: parent) (List.suffix_refl _)]
    simp only [Bool.false_eq_true, if_false]
    exact findProjectRoot_none_of_no_marker hasMarker parent
      (fun d hd => h d (hd.trans (List.suffix_cons x parent)))

/-- C8: when no directory in the ancestry of the start directory — the start
itself, every ancestor, and the filesystem root — contains the marker
directory, `findProjectRoot` returns not-found, and `resolveProjectRoot`
returns the start directory itself (or the current working directory when no
start directory is given, last conjunct).  Ancestors are the list suffixes in
the deepest-first component encoding. -/
theorem findProjectRoot_no_marker :
    ∀ (hasMarker : List String → Bool) (start cwd : List String),
      (∀ d, List.IsSuffix d start → hasMarker d = false) →
      findProjectRoot hasMarker start = none
      ∧ resolveProjectRoot hasMarker (some start) cwd = start
      ∧ ((∀ d, List.IsSuffix d cwd → hasMarker d = false) →
          resolveProjectRoot hasMarker none cwd = cwd) := by
  intro hasMarker start cwd h
  have hfind := findProjectRoot_none_of_no_marker hasMarker start h
  refine ⟨hfind, ?_, ?_⟩
  · simp [resolveProjectRoot, hfind]
  · intro hcwd
    have hfind2 := findProjectRoot_none_of_no_marker hasMarker cwd hcwd
    simp [resolveProjectRoot, hfind2]

/-- Witness for C8: a filesystem with no marker anywhere, starting at
`/home/user` (encoded deepest-first), cwd `/tmp`. -/
theorem findProjectRoot_no_marker_witness :
    findProjectRoot (fun _ => false) ["user", "home"] = none
    ∧ resolveProjectRoot (fun _ => false) (some ["user", "home"]) ["tmp"]
        = ["user", "home"]
    ∧ resolveProjectRoot (fun _ => false) none ["tmp"] = ["tmp"] :=
  ⟨(findProjectRoot_no_marker (fun _ => false) ["user", "home"] ["tmp"]
      (fun _ _ => rfl)).1,
   (findProjectRoot_no_marker (fun _ => false) ["user", "home"] ["tmp"]
      (fun _ _ => rfl)).2.1,
   (findProjectRoot_no_marker (fun _ => false) ["user", "home"] ["tmp"]
      (fun _ _ => rfl)).2.2 (fun _ _ => rfl)⟩

theorem cleanGo_eq_filter_length (cutoffTime : Int) :
    ∀ files : List FileEntry,
      cleanGo cutoffTime files =
        (files.filter (fun g => !g.isDir && decide (g.mtimeMs < cutoffTime)
          && g.deletable)).length := by
  intro files
  induction files with
  | nil => rfl
  | cons f rest ih =>
    cases hdir : f.isDir <;> cases hdel : f.deletable <;>
      by_cases hmt : f.mtimeMs < cutoffTime <;>
        simp [cleanGo, List.filter_cons, hdir, hdel, hmt, ih] <;> omega

/-- C9: `cleanOldBackups` never raises — it is a total function returning the
count of files actually deleted: 0 when the backups directory does not exist,
and otherwise the number of non-directory entries older than the 30-day
cutoff whose deletion succeeded (`deletable`); a failure deleting one file
(swallowed per-item by the source) does not prevent the remaining eligible
files from being processed — each entry contributes independently of the
entries before it (last conjunct). -/
theorem cleanOldBackups_spec :
    ∀ (now : Int) (files : List FileEntry) (f : FileEntry),
      cleanOldBackups none now = 0
      ∧ cleanOldBackups (some files) now =
          (files.filter (fun g => !g.isDir
            && decide (g.mtimeMs < now - 30 * 24 * 60 * 60 * 1000)
            && g.deletable)).length
      ∧ cleanOldBackups (some (f :: files)) now =
          (if !f.isDir && decide (f.mtimeMs < now - 30 * 24 * 60 * 60 * 1000)
              && f.deletable then 1 else 0)
            + cleanOldBackups (some files) now := by
  intro now files f
  refine ⟨rfl, cleanGo_eq_filter_length _ files, ?_⟩
  rw [cleanOldBackups, cleanOldBackups, cleanGo_eq_filter_length,
    cleanGo_eq_filter_length, List.filter_cons]
  cases hc : (!f.isDir && decide (f.mtimeMs < now - 30 * 24 * 60 * 60 * 1000)
      && f.deletable) <;> simp [hc] <;> omega

/-- C10: when the settings file parses to a (partial) record, every field of
the default settings is present in the result of `loadGlobalSettings`: a key
present in the parsed file keeps the file's value, a key absent from the file
takes the default value, so no settings field is ever missing. -/
theorem loadGlobalSettings_merges_defaults :
    ∀ (content : String) (parseSettings : String → Option JFields)
      (parsed : JFields) (k : String),
      parseSettings content = some parsed →
      (k ∈ DEFAULT_SETTINGS.keys →
        (loadGlobalSettings (some content) parseSettings).hasKey k = true)
      ∧ (loadGlobalSettings (some content) parseSettings).lookup k =
          (match parsed.lookup k with
           | some v => some v
           | none => DEFAULT_SETTINGS.lookup k) := by
  intro content parseSettings parsed k hp
  have hload : loadGlobalSettings (some content) parseSettings
      = spreadFields DEFAULT_SETTINGS parsed := by
    simp [loadGlobalSettings, hp]
  constructor
  · intro hmem
    rw [hload, JFields.hasKey, lookup_spreadFields]
    have hdef : DEFAULT_SETTINGS.lookup k ≠ none :=
      (JFields.mem_keys_iff_lookup DEFAULT_SETTINGS k).mp hmem
    cases hpk : parsed.lookup k with
    | some v => simp
    | none =>
      simp only
      cases hdk : DEFAULT_SETTINGS.lookup k with
      | some v => simp
      | none => exact absurd hdk hdef
  · rw [hload, lookup_spreadFields]

/-- Witness for C10: a settings file holding `{activeType: "slim"}`, checked
at the `activeType` key. -/
theorem loadGlobalSettings_merges_defaults_witness :
    (loadGlobalSettings (some "\x7bactiveType: slim\x7d")
        (fun _ => some (.cons "activeType" (.str "slim") .nil))).hasKey
        "activeType" = true
    ∧ (loadGlobalSettings (some "\x7bactiveType: slim\x7d")
        (fun _ => some (.cons "activeType" (.str "slim") .nil))).lookup
        "activeType" =
        (match (JFields.cons "activeType" (.str "slim") .nil).lookup
            "activeType" with
         | some v => some v
         | none => DEFAULT_SETTINGS.lookup "activeType") :=
  ⟨(loadGlobalSettings_merges_defaults "\x7bactiveType: slim\x7d"
      (fun _ => some (.cons "activeType" (.str "slim") .nil))
      (.cons "activeType" (.str "slim") .nil) "activeType" rfl).1
      (by decide),
   (loadGlobalSettings_merges_defaults "\x7bactiveType: slim\x7d"
      (fun _ => some (.cons "activeType" (.str "slim") .nil))
      (.cons "activeType" (.str "slim") .nil) "activeType" rfl).2⟩
